import Mathlib

/-!
Verification of the resolution library core: discrete calendar periods backed
by a monotonic signed 64-bit index (day.rs, week.rs, month.rs, quarter.rs,
year.rs, minutes.rs), the contiguous-range algebra and the gap-aware request
cache (range.rs), plus the older overlapping snapshot of the range type kept
in lib.rs.

Machine integers are modelled as `Int` (for i64) and `Nat` (for u32 / usize)
with explicit two's-complement wrapping where overflow matters.  Fallible
operations return `Option`; operations that can panic (an `unwrap` on `None`
or an overflowing checked addition) return `Except Unit`, with `.error ()`
standing for the panic.  A `BTreeSet` is modelled as its ascending iteration
order: a list that is `Sorted (· < ·)`; a `BTreeMap` as an ascending
association list; the `HashSet` produced by `from_map` as the list of its
insertions.
-/

deriving instance DecidableEq for Except

/-- Two's-complement wrap-around into the signed 64-bit domain,
the release-mode Rust semantics of i64 overflow. -/
def wrap64 (i : Int) : Int := (i + 2 ^ 63) % 2 ^ 64 - 2 ^ 63

/-- Conversion u32::try_from for an i64 value: succeeds exactly on [0, 2^32). -/
def u32TryFrom (i : Int) : Option Nat :=
  if 0 ≤ i ∧ i < 2 ^ 32 then some i.toNat else none

/-- The std::num::NonZeroU32 type: a natural number in [1, 2^32). -/
def NonZeroU32 : Type := {n : Nat // 0 < n ∧ n < 2 ^ 32}

instance : DecidableEq NonZeroU32 := fun a b =>
  decidable_of_iff (a.val = b.val) Subtype.ext_iff.symm

/-- Constructor NonZeroU32::new: `some` exactly on nonzero u32 values.
The input is a u32, hence already below 2^32 at every call site. -/
def nonZeroU32New (n : Nat) : Option NonZeroU32 :=
  if h : 0 < n ∧ n < 2 ^ 32 then some ⟨n, h⟩ else none

/-- Computation `len.get().saturating_add(1)` wrapped back into NonZeroU32,
as done by TimeRange::from_map; saturates at u32::MAX. -/
def satSucc32 (l : NonZeroU32) : NonZeroU32 :=
  if h : l.val + 1 < 2 ^ 32 then ⟨l.val + 1, ⟨Nat.succ_pos _, h⟩⟩
  else ⟨2 ^ 32 - 1, by constructor <;> norm_num⟩

/-- The sealed StartDay marker types of week.rs. -/
inductive StartDay : Type
  | monday | tuesday | wednesday | thursday | friday | saturday | sunday
deriving DecidableEq

/-- Day(i64) of day.rs: days since 0000-01-01. -/
structure Day : Type where
  idx : Int
deriving DecidableEq

/-- Week of week.rs: week number since the epoch, with a start-day marker. -/
structure Week (d : StartDay) : Type where
  n : Int
deriving DecidableEq

/-- Month(i64) of month.rs: months since 0AD. -/
structure Month : Type where
  idx : Int
deriving DecidableEq

/-- Quarter(i64) of quarter.rs: quarters since 0AD. -/
structure Quarter : Type where
  idx : Int
deriving DecidableEq

/-- Year(i64) of year.rs. -/
structure Year : Type where
  idx : Int
deriving DecidableEq

/-- Minutes of minutes.rs: fixed-width buckets of N minutes. -/
structure Minutes (N : Nat) : Type where
  index : Int
deriving DecidableEq

instance : LinearOrder Day :=
  LinearOrder.lift' Day.idx fun a b h => by cases a; cases b; simpa using h

instance {d : StartDay} : LinearOrder (Week d) :=
  LinearOrder.lift' Week.n fun a b h => by cases a; cases b; simpa using h

instance : LinearOrder Month :=
  LinearOrder.lift' Month.idx fun a b h => by cases a; cases b; simpa using h

instance : LinearOrder Quarter :=
  LinearOrder.lift' Quarter.idx fun a b h => by cases a; cases b; simpa using h

instance : LinearOrder Year :=
  LinearOrder.lift' Year.idx fun a b h => by cases a; cases b; simpa using h

instance {N : Nat} : LinearOrder (Minutes N) :=
  LinearOrder.lift' (Minutes.index) fun a b h => by cases a; cases b; simpa using h

/-- The TimeResolution trait of lib.rs: a totally ordered period kind with a
monotonic i64 index, n-step arithmetic and signed distance.  `succN`/`predN`
take a u32 count. -/
class TimeResolution (P : Type) extends LinearOrder P where
  toMonotonic : P → Int
  fromMonotonic : Int → P
  succN : P → Nat → P
  predN : P → Nat → P
  between : P → P → Int

/-- Derived method succ(): the n = 1 case of succ_n. -/
def TimeResolution.succOne {P : Type} [TimeResolution P] (p : P) : P :=
  TimeResolution.succN p 1

/-- Derived method pred(): the n = 1 case of pred_n. -/
def TimeResolution.predOne {P : Type} [TimeResolution P] (p : P) : P :=
  TimeResolution.predN p 1

instance instResDay : TimeResolution Day :=
  { toMonotonic := fun p => p.idx
    fromMonotonic := fun i => ⟨i⟩
    succN := fun p n => ⟨wrap64 (p.idx + n)⟩
    predN := fun p n => ⟨wrap64 (p.idx - n)⟩
    between := fun a b => wrap64 (b.idx - a.idx) }

instance instResWeek {d : StartDay} : TimeResolution (Week d) :=
  { toMonotonic := fun p => p.n
    fromMonotonic := fun i => ⟨i⟩
    succN := fun p n => ⟨wrap64 (p.n + n)⟩
    predN := fun p n => ⟨wrap64 (p.n - n)⟩
    between := fun a b => wrap64 (b.n - a.n) }

instance instResMonth : TimeResolution Month :=
  { toMonotonic := fun p => p.idx
    fromMonotonic := fun i => ⟨i⟩
    succN := fun p n => ⟨wrap64 (p.idx + n)⟩
    predN := fun p n => ⟨wrap64 (p.idx - n)⟩
    between := fun a b => wrap64 (b.idx - a.idx) }

instance instResQuarter : TimeResolution Quarter :=
  { toMonotonic := fun p => p.idx
    fromMonotonic := fun i => ⟨i⟩
    succN := fun p n => ⟨wrap64 (p.idx + n)⟩
    predN := fun p n => ⟨wrap64 (p.idx - n)⟩
    between := fun a b => wrap64 (b.idx - a.idx) }

instance instResYear : TimeResolution Year :=
  { toMonotonic := fun p => p.idx
    fromMonotonic := fun i => ⟨i⟩
    succN := fun p n => ⟨wrap64 (p.idx + n)⟩
    predN := fun p n => ⟨wrap64 (p.idx - n)⟩
    between := fun a b => wrap64 (b.idx - a.idx) }

instance instResMinutes {N : Nat} : TimeResolution (Minutes N) :=
  { toMonotonic := fun p => p.index
    fromMonotonic := fun i => ⟨i⟩
    succN := fun p n => ⟨wrap64 (p.index + n)⟩
    predN := fun p n => ⟨wrap64 (p.index - n)⟩
    between := fun a b => wrap64 (b.index - a.index) }

/-- TimeRange of range.rs: a start period and a NonZeroU32 length, so a
length-0 value of this type is unrepresentable. -/
structure TimeRange (P : Type) [TimeResolution P] : Type where
  start : P
  len : NonZeroU32
deriving DecidableEq

/-- TimeRangeComparison of range.rs. -/
inductive TimeRangeComparison : Type
  | superset | subset | earlier | later
deriving DecidableEq

namespace TimeRange

variable {P : Type} [TimeResolution P]

/-- TimeRange::maybe_new: `Some` exactly when NonZeroU32::new accepts `len`. -/
def maybeNew (start : P) (len : Nat) : Option (TimeRange P) :=
  (nonZeroU32New len).map fun l => ⟨start, l⟩

/-- TimeRange::new with an already-nonzero length. -/
def mkNew (start : P) (len : NonZeroU32) : TimeRange P := ⟨start, len⟩

/-- TimeRange::end as written in range.rs: `start.succ_n(len.get())`. -/
def rangeEnd (r : TimeRange P) : P := TimeResolution.succN r.start r.len.val

/-- TimeRange::from_start_end.  The u32 addition `1 + u32::try_from(..)` wraps
in release mode; when it wraps to zero the `unwrap` of NonZeroU32::new panics,
modelled as `.error ()`. -/
def fromStartEnd (s e : P) : Except Unit (Option (TimeRange P)) :=
  if s ≤ e then
    match u32TryFrom (TimeResolution.between s e) with
    | none => .ok none
    | some d =>
      match nonZeroU32New ((1 + d) % 2 ^ 32) with
      | none => .error ()
      | some l => .ok (some ⟨s, l⟩)
  else .ok none

/-- TimeRange::subtract: left and right remainders computed by from_start_end,
propagating a panic from either half. -/
def subtract (a b : TimeRange P) :
    Except Unit (Option (TimeRange P) × Option (TimeRange P)) := do
  let l ← fromStartEnd a.start (min (TimeResolution.predOne b.start) (rangeEnd a))
  let r ← fromStartEnd (max (TimeResolution.succOne (rangeEnd b)) a.start) (rangeEnd a)
  pure (l, r)

/-- TimeRange::compare, a four-way match on which subtract halves are present. -/
def compareRanges (a b : TimeRange P) : Except Unit TimeRangeComparison :=
  (subtract a b).map fun
    | (some _, some _) => .superset
    | (some _, none) => .earlier
    | (none, some _) => .later
    | (none, none) => .subset

/-- TimeRange::from_set over the ascending element list of the BTreeSet:
reject sizes above u32::MAX and the empty set, then take the first element
as start and the cardinality as length. -/
def fromSet (s : List P) : Option (TimeRange P) :=
  if 2 ^ 32 ≤ s.length then none
  else
    match s with
    | [] => none
    | x :: xs => (nonZeroU32New (xs.length + 1)).map fun l => ⟨x, l⟩

/-- Loop of TimeRange::from_map: extend the current range while the next index
is previous + 1, otherwise swap in a fresh single-element range and insert the
closed one into the result set (modelled as the list of insertions).  The
final `current_range` is never inserted after the loop. -/
def fromMapGo : List Int → TimeRange P → Int → List (TimeRange P) → List (TimeRange P)
  | [], _, _, ranges => ranges
  | v :: vs, cur, prev, ranges =>
    if v = prev + 1 then
      fromMapGo vs ⟨cur.start, satSucc32 cur.len⟩ v ranges
    else
      fromMapGo vs ⟨TimeResolution.fromMonotonic v, ⟨1, by norm_num⟩⟩ v (ranges ++ [cur])

/-- TimeRange::from_map over the ascending index list of the BTreeSet. -/
def fromMap (m : List Int) : Option (List (TimeRange P)) :=
  match m with
  | [] => none
  | first :: rest =>
    some (fromMapGo rest ⟨TimeResolution.fromMonotonic first, ⟨1, by norm_num⟩⟩ first [])

end TimeRange

/-- Iterator state of TimeRangeIter in range.rs. -/
structure TimeRangeIter (P : Type) [TimeResolution P] : Type where
  current : P
  stop : P

namespace TimeRange

variable {P : Type} [TimeResolution P]

/-- TimeRange::iter: starts at `start` with the inclusive bound `end()`. -/
def iter (r : TimeRange P) : TimeRangeIter P := ⟨r.start, rangeEnd r⟩

/-- Iterator::next of TimeRangeIter: emit `current` while `current <= end`,
stepping by succ(). -/
def iterNext (it : TimeRangeIter P) : Option (P × TimeRangeIter P) :=
  if it.current ≤ it.stop then
    some (it.current, ⟨TimeResolution.succOne it.current, it.stop⟩)
  else none

/-- Collecting at most `fuel` elements from the iterator.  The Rust `collect`
runs the iterator to exhaustion; any fuel at least the number of emitted
elements yields that same list. -/
def iterTake (fuel : Nat) (it : TimeRangeIter P) : List P :=
  match fuel with
  | 0 => []
  | fuel + 1 =>
    match iterNext it with
    | none => []
    | some (p, it') => p :: iterTake fuel it'

/-- Semantic contract of the specification for what a range denotes: exactly
`len` consecutive periods `start, start.succ(), ..., start.succ_n(len - 1)`.
Used to compare the code's behaviour against the documented meaning. -/
def contractList (r : TimeRange P) : List P :=
  (List.range r.len.val).map fun i => TimeResolution.succN r.start i

end TimeRange

/-- TimeRange of the older lib.rs snapshot: the length is a plain u32 with no
nonzero guarantee. -/
structure LibTimeRange (P : Type) [TimeResolution P] : Type where
  start : P
  len : Nat
deriving DecidableEq

/-- TimeRange::new of lib.rs lines 242-244: stores the given u32 length with
no check whatsoever. -/
def libNew {P : Type} [TimeResolution P] (start : P) (len : Nat) : LibTimeRange P :=
  ⟨start, len % 2 ^ 32⟩

/-- Cache of range.rs: a BTreeMap of resolved data and a BTreeSet of resolved
request keys, modelled as an ascending association list and an ascending
key list. -/
structure Cache (K T : Type) : Type where
  data : List (K × T)
  requests : List K
deriving DecidableEq

/-- CacheResponse of range.rs. -/
inductive CacheResponse (K T : Type) : Type
  | hit (found : List (K × T))
  | miss (gaps : List (List K))
deriving DecidableEq

section CacheModel

variable {K T : Type} [LinearOrder K] [DecidableEq K]

/-- Loop of missing_pieces: scan the requested keys in ascending order,
growing the current run while the key is unresolved, and pushing the run when
a resolved key is met; the last run is pushed after the loop. -/
def missingPiecesGo (requests : List K) : List K → List K → List (List K)
  | [], cur => if cur.isEmpty then [] else [cur]
  | k :: ks, cur =>
    if k ∈ requests then
      if cur.isEmpty then missingPiecesGo requests ks cur
      else cur :: missingPiecesGo requests ks []
    else missingPiecesGo requests ks (cur ++ [k])

/-- Function missing_pieces of range.rs. -/
def missingPieces (request requests : List K) : List (List K) :=
  missingPiecesGo requests request []

/-- Cache::get: empty request gives an empty Hit; a request fully inside the
resolved set gives a Hit of every cached pair between the least and greatest
requested key; anything else gives a Miss of the missing pieces. -/
def cacheGet (c : Cache K T) (request : List K) : CacheResponse K T :=
  match request with
  | [] => .hit []
  | h :: t =>
    if (h :: t) ⊆ c.requests then
      .hit (c.data.filter fun kv =>
        decide (h ≤ kv.1) && decide (kv.1 ≤ (h :: t).getLast (List.cons_ne_nil h t)))
    else .miss (missingPieces (h :: t) c.requests)

/-- Ordered-set insertion keeping the ascending list sorted and duplicate
free: the effect of one key of BTreeSet::append. -/
def setInsert (k : K) : List K → List K
  | [] => [k]
  | x :: xs =>
    if k < x then k :: x :: xs
    else if k = x then x :: xs
    else x :: setInsert k xs

/-- Ordered-map insertion: BTreeMap::insert, silently overwriting the value
at an existing key. -/
def mapInsert (k : K) (v : T) : List (K × T) → List (K × T)
  | [] => [(k, v)]
  | (x, w) :: xs =>
    if k < x then (k, v) :: (x, w) :: xs
    else if k = x then (k, v) :: xs
    else (x, w) :: mapInsert k v xs

/-- Cache::empty. -/
def cacheEmpty : Cache K T := ⟨[], []⟩

/-- Cache::add: merge the request keys into `requests` (BTreeSet::append) and
upsert every data pair into `data`. -/
def cacheAdd (c : Cache K T) (requestRange : List K) (data : List (K × T)) :
    Cache K T :=
  { requests := requestRange.foldl (fun acc k => setInsert k acc) c.requests
    data := data.foldl (fun acc kv => mapInsert kv.1 kv.2 acc) c.data }

end CacheModel

/-- One step of a cache lifetime: an add call, or a get call (which takes the
cache by shared reference and cannot mutate it). -/
inductive CacheOp (K T : Type) : Type
  | add (rng : List K) (data : List (K × T))
  | get (req : List K)

section CacheTrace

variable {K T : Type} [LinearOrder K] [DecidableEq K]

/-- Effect of one operation on the cache state. -/
def cacheStep (c : Cache K T) : CacheOp K T → Cache K T
  | .add r d => cacheAdd c r d
  | .get _ => c

/-- Running a sequence of operations from a given state. -/
def cacheRun (c : Cache K T) (ops : List (CacheOp K T)) : Cache K T :=
  ops.foldl cacheStep c

/-- Union of the request-key sets ever passed to add in a trace. -/
def addedKeys : List (CacheOp K T) → List K
  | [] => []
  | .add r _ :: rest => r ++ addedKeys rest
  | .get _ :: rest => addedKeys rest

/-- Key set of an association list. -/
def mapKeys (m : List (K × T)) : List K := m.map Prod.fst

end CacheTrace

/-! Arithmetic facts about 64-bit wrapping. -/

theorem wrap64_eq_self {i : Int} (h1 : -2 ^ 63 ≤ i) (h2 : i < 2 ^ 63) :
    wrap64 i = i := by
  unfold wrap64
  have h64 : (2 : Int) ^ 64 = 18446744073709551616 := by norm_num
  have h63 : (2 : Int) ^ 63 = 9223372036854775808 := by norm_num
  rw [h63, h64]
  rw [h63] at h1 h2
  omega

theorem wrap64_add_sub (i : Int) (n : Nat) (h1 : -2 ^ 63 ≤ i) (h2 : i < 2 ^ 63) :
    wrap64 (wrap64 (i + n) - n) = i := by
  unfold wrap64
  have h64 : (2 : Int) ^ 64 = 18446744073709551616 := by norm_num
  have h63 : (2 : Int) ^ 63 = 9223372036854775808 := by norm_num
  rw [h63, h64]
  rw [h63] at h1 h2
  omega

/-- C9: for every period value p of every period kind and every step count n,
p.succ_n(n).pred_n(n) == p.  Every kind steps its i64 index with wrapping
arithmetic, which the subtraction undoes exactly, so this holds for every
representable (64-bit) index and every count. -/
theorem c9_succ_pred_inverse :
    (∀ (p : Day) (n : Nat), -2 ^ 63 ≤ p.idx → p.idx < 2 ^ 63 →
      TimeResolution.predN (TimeResolution.succN p n) n = p)
    ∧ (∀ (d : StartDay) (p : Week d) (n : Nat), -2 ^ 63 ≤ p.n → p.n < 2 ^ 63 →
      TimeResolution.predN (TimeResolution.succN p n) n = p)
    ∧ (∀ (p : Month) (n : Nat), -2 ^ 63 ≤ p.idx → p.idx < 2 ^ 63 →
      TimeResolution.predN (TimeResolution.succN p n) n = p)
    ∧ (∀ (p : Quarter) (n : Nat), -2 ^ 63 ≤ p.idx → p.idx < 2 ^ 63 →
      TimeResolution.predN (TimeResolution.succN p n) n = p)
    ∧ (∀ (p : Year) (n : Nat), -2 ^ 63 ≤ p.idx → p.idx < 2 ^ 63 →
      TimeResolution.predN (TimeResolution.succN p n) n = p)
    ∧ (∀ (N : Nat) (p : Minutes N) (n : Nat), -2 ^ 63 ≤ p.index → p.index < 2 ^ 63 →
      TimeResolution.predN (TimeResolution.succN p n) n = p) := by
  refine ⟨?_, ?_, ?_, ?_, ?_, ?_⟩
  · intro p n h1 h2
    cases p with
    | mk i =>
      show Day.mk (wrap64 (wrap64 (i + (n : Int)) - (n : Int))) = Day.mk i
      exact congrArg Day.mk (wrap64_add_sub i n h1 h2)
  · intro d p n h1 h2
    cases p with
    | mk i =>
      show Week.mk (wrap64 (wrap64 (i + (n : Int)) - (n : Int))) = Week.mk i
      exact congrArg Week.mk (wrap64_add_sub i n h1 h2)
  · intro p n h1 h2
    cases p with
    | mk i =>
      show Month.mk (wrap64 (wrap64 (i + (n : Int)) - (n : Int))) = Month.mk i
      exact congrArg Month.mk (wrap64_add_sub i n h1 h2)
  · intro p n h1 h2
    cases p with
    | mk i =>
      show Quarter.mk (wrap64 (wrap64 (i + (n : Int)) - (n : Int))) = Quarter.mk i
      exact congrArg Quarter.mk (wrap64_add_sub i n h1 h2)
  · intro p n h1 h2
    cases p with
    | mk i =>
      show Year.mk (wrap64 (wrap64 (i + (n : Int)) - (n : Int))) = Year.mk i
      exact congrArg Year.mk (wrap64_add_sub i n h1 h2)
  · intro N p n h1 h2
    cases p with
    | mk i =>
      show Minutes.mk (wrap64 (wrap64 (i + (n : Int)) - (n : Int))) = Minutes.mk i
      exact congrArg Minutes.mk (wrap64_add_sub i n h1 h2)

/-- Witness for C9 at a concrete day and step count. -/
theorem c9_succ_pred_inverse_witness :
    (-2 ^ 63 ≤ (5 : Int) ∧ (5 : Int) < 2 ^ 63)
    ∧ TimeResolution.predN (TimeResolution.succN (⟨5⟩ : Day) 3) 3 = (⟨5⟩ : Day) :=
  ⟨⟨by norm_num, by norm_num⟩,
    c9_succ_pred_inverse.1 ⟨5⟩ 3 (by norm_num) (by norm_num)⟩

/-- C1: for the one-day range at day 0 with len = 1, range.rs computes
end() = start.succ_n(len) = day 1 instead of start.succ_n(len - 1) = day 0,
and its iterator therefore yields 2 elements instead of len = 1.  This
evaluates the code at that failing input. -/
theorem c1_end_off_by_one :
    TimeRange.rangeEnd (⟨⟨0⟩, ⟨1, by norm_num⟩⟩ : TimeRange Day) = ⟨1⟩
    ∧ TimeResolution.succN (⟨0⟩ : Day) (1 - 1) = ⟨0⟩
    ∧ (⟨1⟩ : Day) ≠ ⟨0⟩
    ∧ TimeRange.iterTake 5 (TimeRange.iter (⟨⟨0⟩, ⟨1, by norm_num⟩⟩ : TimeRange Day))
        = [⟨0⟩, ⟨1⟩]
    ∧ [(⟨0⟩ : Day), ⟨1⟩].length = 2 := by decide

/-- C2: coalescing the ascending monotonic indices 1,2,3,7,8,10 with
TimeRange::from_map returns only the two ranges (start 1, len 3) and
(start 7, len 2): the loop never flushes the final open range, so the range
covering 10 is dropped, and index 10 is covered by no returned range.  This
evaluates the code at that failing input. -/
theorem c2_from_map_drops_final_range :
    TimeRange.fromMap (P := Day) [1, 2, 3, 7, 8, 10] =
      some [⟨⟨1⟩, ⟨3, by norm_num⟩⟩, ⟨⟨7⟩, ⟨2, by norm_num⟩⟩]
    ∧ [(⟨⟨1⟩, ⟨3, by norm_num⟩⟩ : TimeRange Day), ⟨⟨7⟩, ⟨2, by norm_num⟩⟩].length = 2
    ∧ (⟨10⟩ : Day) ∉
        TimeRange.contractList (⟨⟨1⟩, ⟨3, by norm_num⟩⟩ : TimeRange Day)
          ++ TimeRange.contractList (⟨⟨7⟩, ⟨2, by norm_num⟩⟩ : TimeRange Day)
    ∧ TimeRange.fromMap (P := Day) [5] = some [] := by decide

/-- C5 counterexample: with start = day 0 and end = day 2^32 we have
start <= end, yet from_start_end returns None because the distance does not
fit in u32 — refuting the claimed "Some iff start <= end". -/
theorem c5_counterexample :
    (⟨0⟩ : Day) ≤ ⟨2 ^ 32⟩
    ∧ TimeRange.fromStartEnd (⟨0⟩ : Day) ⟨2 ^ 32⟩ = .ok none := by decide

/-- C5 amended: from_start_end(s, e) returns `Some` exactly when s <= e and
the distance between(s, e) lies in [0, 2^32 - 2]; the returned range starts
at s with length 1 + between(s, e).  When the distance is exactly 2^32 - 1
the computation `1 + u32::try_from(..)` overflows u32 and the unwrap of
NonZeroU32::new panics. -/
theorem c5_from_start_end_characterization {P : Type} [TimeResolution P] (s e : P) :
    ((∃ r, TimeRange.fromStartEnd s e = .ok (some r)) ↔
      (s ≤ e ∧ 0 ≤ TimeResolution.between s e
        ∧ TimeResolution.between s e ≤ 2 ^ 32 - 2))
    ∧ (∀ r, TimeRange.fromStartEnd s e = .ok (some r) →
        r.start = s ∧ (r.len.val : Int) = 1 + TimeResolution.between s e)
    ∧ (TimeRange.fromStartEnd s e = .error () ↔
      (s ≤ e ∧ TimeResolution.between s e = 2 ^ 32 - 1)) := by
  unfold TimeRange.fromStartEnd u32TryFrom nonZeroU32New
  by_cases hle : s ≤ e
  · simp only [if_pos hle]
    by_cases hb : 0 ≤ TimeResolution.between s e ∧ TimeResolution.between s e < 2 ^ 32
    · simp only [if_pos hb]
      by_cases hnz : 0 < (1 + (TimeResolution.between s e).toNat) % 2 ^ 32
        ∧ (1 + (TimeResolution.between s e).toNat) % 2 ^ 32 < 2 ^ 32
      · rw [dif_pos hnz]
        refine ⟨⟨fun _ => ⟨hle, hb.1, ?_⟩, fun _ => ⟨_, rfl⟩⟩, ?_, ?_⟩
        · omega
        · rintro r hr
          injection hr with hr
          injection hr with hr
          subst hr
          refine ⟨rfl, ?_⟩
          show (((1 + (TimeResolution.between s e).toNat) % 2 ^ 32 : Nat) : Int)
            = 1 + TimeResolution.between s e
          omega
        · constructor
          · intro h
            cases h
          · intro ⟨_, h⟩
            omega
      · rw [dif_neg hnz]
        refine ⟨⟨?_, ?_⟩, ?_, ?_⟩
        · rintro ⟨r, hr⟩
          cases hr
        · intro ⟨_, hpos, hlt⟩
          omega
        · rintro r hr
          cases hr
        · exact ⟨fun _ => ⟨hle, by omega⟩, fun _ => rfl⟩
    · simp only [if_neg hb]
      refine ⟨⟨?_, ?_⟩, ?_, ?_⟩
      · rintro ⟨r, hr⟩
        cases hr
      · intro ⟨_, hpos, hlt⟩
        exact absurd ⟨hpos, by omega⟩ hb
      · rintro r hr
        cases hr
      · constructor
        · intro h
          cases h
        · intro ⟨_, h⟩
          exact absurd ⟨by omega, by omega⟩ hb
  · simp only [if_neg hle]
    refine ⟨⟨?_, ?_⟩, ?_, ?_⟩
    · rintro ⟨r, hr⟩
      cases hr
    · intro ⟨h, _⟩
      exact absurd h hle
    · rintro r hr
      cases hr
    · constructor
      · intro h
        cases h
      · intro ⟨h, _⟩
        exact absurd h hle

/-- Witness for C5 at days 0 and 5: the range exists, starts at day 0 and has
length 6 = 1 + between. -/
theorem c5_from_start_end_witness :
    (⟨⟨0⟩, ⟨6, by norm_num⟩⟩ : TimeRange Day).start = ⟨0⟩
    ∧ (((⟨⟨0⟩, ⟨6, by norm_num⟩⟩ : TimeRange Day).len.val : Int)
        = 1 + TimeResolution.between (⟨0⟩ : Day) ⟨5⟩) :=
  (c5_from_start_end_characterization (⟨0⟩ : Day) ⟨5⟩).2.1 _ (by decide)

/-- C6: at the overlapping day ranges a = (start 0, len 2) and
b = (start 0, len 1), subtract returns (None, Some (start 2, len 1)).  Under
the specification's semantic contract a covers days 0 and 1 and b covers
day 0 (the ranges overlap at day 0), so the points of a outside b are exactly
day 1 — but the right remainder denotes day 2, because succ(other.end())
starts two past b's true last period.  The halves do not partition a's
points outside b; compare still answers Later, matching the right-only
shape.  This evaluates the code at that failing input. -/
theorem c6_subtract_not_a_partition :
    TimeRange.subtract (⟨⟨0⟩, ⟨2, by norm_num⟩⟩ : TimeRange Day) ⟨⟨0⟩, ⟨1, by norm_num⟩⟩
        = .ok (none, some ⟨⟨2⟩, ⟨1, by norm_num⟩⟩)
    ∧ TimeRange.contractList (⟨⟨0⟩, ⟨2, by norm_num⟩⟩ : TimeRange Day) = [⟨0⟩, ⟨1⟩]
    ∧ TimeRange.contractList (⟨⟨0⟩, ⟨1, by norm_num⟩⟩ : TimeRange Day) = [⟨0⟩]
    ∧ TimeRange.contractList (⟨⟨2⟩, ⟨1, by norm_num⟩⟩ : TimeRange Day) = [⟨2⟩]
    ∧ (⟨0⟩ : Day) ∈ TimeRange.contractList (⟨⟨0⟩, ⟨2, by norm_num⟩⟩ : TimeRange Day)
    ∧ (⟨0⟩ : Day) ∈ TimeRange.contractList (⟨⟨0⟩, ⟨1, by norm_num⟩⟩ : TimeRange Day)
    ∧ ((TimeRange.contractList (⟨⟨0⟩, ⟨2, by norm_num⟩⟩ : TimeRange Day)).filter
        (fun p => !decide (p ∈ TimeRange.contractList
          (⟨⟨0⟩, ⟨1, by norm_num⟩⟩ : TimeRange Day))) = [⟨1⟩])
    ∧ [(⟨2⟩ : Day)] ≠ [⟨1⟩]
    ∧ TimeRange.compareRanges (⟨⟨0⟩, ⟨2, by norm_num⟩⟩ : TimeRange Day)
        ⟨⟨0⟩, ⟨1, by norm_num⟩⟩ = .ok .later := by decide

/-- C7 counterexample: the TimeRange::new of the lib.rs snapshot performs no
check, so passing length 0 constructs a range value whose length is 0. -/
theorem c7_counterexample : (libNew (⟨0⟩ : Day) 0).len = 0 := by decide

/-- C7 amended: in range.rs the length field is NonZeroU32, so every value of
the range type has length in [1, 2^32) and maybe_new rejects 0 while
accepting any nonzero u32; but the older lib.rs snapshot stores a plain u32
length and its unchecked new can construct a length-0 range. -/
theorem c7_nonzero_length_invariant :
    (∀ (P : Type) [TimeResolution P] (r : TimeRange P),
      0 < r.len.val ∧ r.len.val < 2 ^ 32)
    ∧ (∀ (P : Type) [TimeResolution P] (s : P), TimeRange.maybeNew s 0 = none)
    ∧ (∀ (P : Type) [TimeResolution P] (s : P) (l : Nat), 0 < l → l < 2 ^ 32 →
        ∃ r, TimeRange.maybeNew s l = some r ∧ r.len.val = l) := by
  refine ⟨fun P _ r => r.len.property, fun P _ s => rfl, ?_⟩
  intro P _ s l hpos hlt
  refine ⟨⟨s, ⟨l, hpos, hlt⟩⟩, ?_, rfl⟩
  unfold TimeRange.maybeNew nonZeroU32New
  rw [dif_pos ⟨hpos, hlt⟩]
  rfl

/-- Witness for C7 at day 0 and length 7. -/
theorem c7_nonzero_length_witness :
    ∃ r : TimeRange Day, TimeRange.maybeNew (⟨0⟩ : Day) 7 = some r ∧ r.len.val = 7 :=
  c7_nonzero_length_invariant.2.2 Day ⟨0⟩ 7 (by norm_num) (by norm_num)

/-- Evaluation of from_set on a nonempty ascending list whose size fits u32:
first element as start, cardinality as length, no contiguity check. -/
theorem fromSet_cons_eq {P : Type} [TimeResolution P] (x : P) (xs : List P)
    (h : xs.length + 1 < 2 ^ 32) :
    TimeRange.fromSet (x :: xs) = some ⟨x, ⟨xs.length + 1, Nat.succ_pos _, h⟩⟩ := by
  unfold TimeRange.fromSet nonZeroU32New
  rw [if_neg (by simp; omega)]
  show Option.map (fun l => ({ start := x, len := l } : TimeRange P))
      (if h' : 0 < xs.length + 1 ∧ xs.length + 1 < 2 ^ 32
        then some ⟨xs.length + 1, h'⟩ else none)
    = some ⟨x, ⟨xs.length + 1, Nat.succ_pos _, h⟩⟩
  rw [dif_pos ⟨Nat.succ_pos _, h⟩]
  rfl

/-- An overflow-free consecutive run of days satisfies the step-by-one
chain relation. -/
theorem contract_chain_day (a : Int) (len : Nat)
    (h1 : -2 ^ 63 ≤ a) (h2 : a + len ≤ 2 ^ 63) :
    ((List.range len).map fun i => TimeResolution.succN (⟨a⟩ : Day) i).Chain'
      (fun p q : Day => q.idx = p.idx + 1) := by
  rw [List.chain'_map]
  cases len with
  | zero => simp
  | succ n =>
    rw [List.chain'_range_succ]
    intro m hm
    show wrap64 (a + ((m + 1 : Nat) : Int)) = wrap64 (a + (m : Int)) + 1
    have hn : ((n + 1 : Nat) : Int) = (n : Int) + 1 := by push_cast; ring
    rw [hn] at h2
    rw [wrap64_eq_self (by omega) (by push_cast; omega),
      wrap64_eq_self (by omega) (by push_cast; omega)]
    push_cast
    ring

/-- C10: from_set returns Some for every non-empty set whose size fits in
u32, taking the first (minimal) element as start and the cardinality as
length, and performs no contiguity check — so for a non-contiguous sorted
input set (one that is not a step-by-one chain), the constructed range
denotes, per the specification's contract, a different list of periods than
the input. -/
theorem c10_from_set_unchecked :
    (∀ (P : Type) [TimeResolution P] (s : List P) (hne : s ≠ []),
      s.length < 2 ^ 32 →
      ∃ r, TimeRange.fromSet s = some r ∧ r.start = s.head hne
        ∧ r.len.val = s.length)
    ∧ (∀ (s : List Day) (hne : s ≠ []), s.length < 2 ^ 32 →
        s.Sorted (· < ·) →
        -2 ^ 63 ≤ (s.head hne).idx → (s.head hne).idx + s.length ≤ 2 ^ 63 →
        ¬ s.Chain' (fun p q : Day => q.idx = p.idx + 1) →
        ∀ r, TimeRange.fromSet s = some r → TimeRange.contractList r ≠ s) := by
  constructor
  · intro P _ s hne hlen
    obtain ⟨x, xs, rfl⟩ : ∃ x xs, s = x :: xs := by
      cases s with
      | nil => exact absurd rfl hne
      | cons x xs => exact ⟨x, xs, rfl⟩
    have hl : xs.length + 1 < 2 ^ 32 := by simpa using hlen
    exact ⟨_, fromSet_cons_eq x xs hl, rfl, rfl⟩
  · intro s hne hlen _hsort h1 h2 hnc r hr heq
    obtain ⟨x, xs, rfl⟩ : ∃ x xs, s = x :: xs := by
      cases s with
      | nil => exact absurd rfl hne
      | cons x xs => exact ⟨x, xs, rfl⟩
    have hl : xs.length + 1 < 2 ^ 32 := by simpa using hlen
    rw [fromSet_cons_eq x xs hl] at hr
    injection hr with hr
    subst hr
    apply hnc
    rw [← heq]
    cases x with
    | mk a =>
      have h2' : a + ((xs.length + 1 : Nat) : Int) ≤ 2 ^ 63 := by
        simpa using h2
      exact contract_chain_day a (xs.length + 1) h1 h2'

/-- Witness for C10 on the non-contiguous day set containing days 0 and 5. -/
theorem c10_from_set_witness :
    (∃ r, TimeRange.fromSet [(⟨0⟩ : Day), ⟨5⟩] = some r ∧ r.start = ⟨0⟩
      ∧ r.len.val = 2)
    ∧ TimeRange.contractList (⟨⟨0⟩, ⟨2, by norm_num⟩⟩ : TimeRange Day)
        ≠ [⟨0⟩, ⟨5⟩] := by
  constructor
  · exact c10_from_set_unchecked.1 Day [⟨0⟩, ⟨5⟩] (by decide) (by decide)
  · exact c10_from_set_unchecked.2 [⟨0⟩, ⟨5⟩] (by decide) (by decide) (by decide)
      (by decide) (by decide)
      (by norm_num [List.chain'_cons, List.chain'_singleton])
      ⟨⟨0⟩, ⟨2, by norm_num⟩⟩ (by decide)

/-- Helper: in a strictly ascending list every element is at most the last. -/
theorem sorted_le_getLast {K : Type} [LinearOrder K] {l : List K}
    (hs : l.Sorted (· < ·)) {x : K} (hx : x ∈ l) (hne : l ≠ []) :
    x ≤ l.getLast hne := by
  induction l generalizing x with
  | nil => exact absurd rfl hne
  | cons a t ih =>
    cases t with
    | nil =>
      rcases List.mem_cons.mp hx with rfl | hx
      · simp [List.getLast]
      · cases hx
    | cons b t' =>
      rw [List.getLast_cons (List.cons_ne_nil b t')]
      rcases List.mem_cons.mp hx with rfl | hx
      · have hab : x < b := (List.sorted_cons.mp hs).1 b (List.mem_cons_self b t')
        exact le_trans hab.le
          (ih hs.of_cons (List.mem_cons_self b t') (List.cons_ne_nil b t'))
      · exact ih hs.of_cons hx (List.cons_ne_nil b t')

/-- Helper: in a strictly ascending list the head is a lower bound. -/
theorem sorted_head_le {K : Type} [LinearOrder K] {h : K} {t : List K}
    (hs : (h :: t).Sorted (· < ·)) {x : K} (hx : x ∈ h :: t) : h ≤ x := by
  rcases List.mem_cons.mp hx with rfl | hx
  · exact le_refl x
  · exact le_of_lt ((List.sorted_cons.mp hs).1 x hx)

/-- C3: Cache::get returns Hit(empty) for the empty request; for a nonempty
request fully contained in the resolved-request set it returns a Hit holding
exactly the cached pairs whose key lies between the least and greatest
requested key; otherwise it returns a Miss.  The three premise cases are
exhaustive and the Hit and Miss outcomes are mutually exclusive. -/
theorem c3_cache_get_cases {K T : Type} [LinearOrder K] [DecidableEq K]
    (c : Cache K T) (request : List K) (hreq : request.Sorted (· < ·)) :
    (request = [] → cacheGet c request = .hit [])
    ∧ (request ≠ [] → request ⊆ c.requests →
        ∃ found, cacheGet c request = .hit found ∧
          ∀ k v, (k, v) ∈ found ↔
            ((k, v) ∈ c.data ∧ (∃ lo ∈ request, lo ≤ k) ∧ ∃ hi ∈ request, k ≤ hi))
    ∧ (request ≠ [] → ¬ request ⊆ c.requests →
        ∃ gaps, cacheGet c request = .miss gaps)
    ∧ (request = [] ∨ (request ≠ [] ∧ request ⊆ c.requests)
        ∨ (request ≠ [] ∧ ¬ request ⊆ c.requests))
    ∧ (∀ found gaps,
        ¬ (cacheGet c request = .hit found ∧ cacheGet c request = .miss gaps)) := by
  refine ⟨?_, ?_, ?_, ?_, ?_⟩
  · rintro rfl
    rfl
  · intro hne hsub
    obtain ⟨h, t, rfl⟩ : ∃ h t, request = h :: t := by
      cases request with
      | nil => exact absurd rfl hne
      | cons h t => exact ⟨h, t, rfl⟩
    refine ⟨c.data.filter fun kv =>
        decide (h ≤ kv.1) && decide (kv.1 ≤ (h :: t).getLast (List.cons_ne_nil h t)),
      ?_, ?_⟩
    · show (if (h :: t) ⊆ c.requests then _ else _) = _
      rw [if_pos hsub]
    · intro k v
      rw [List.mem_filter]
      constructor
      · rintro ⟨hmem, hp⟩
        rw [Bool.and_eq_true, decide_eq_true_iff, decide_eq_true_iff] at hp
        exact ⟨hmem, ⟨h, List.mem_cons_self h t, hp.1⟩,
          ⟨(h :: t).getLast (List.cons_ne_nil h t),
            List.getLast_mem (List.cons_ne_nil h t), hp.2⟩⟩
      · rintro ⟨hmem, ⟨lo, hlo, hlok⟩, ⟨hi, hhi, hkhi⟩⟩
        refine ⟨hmem, ?_⟩
        rw [Bool.and_eq_true, decide_eq_true_iff, decide_eq_true_iff]
        exact ⟨le_trans (sorted_head_le hreq hlo) hlok,
          le_trans hkhi (sorted_le_getLast hreq hhi (List.cons_ne_nil h t))⟩
  · intro hne hsub
    obtain ⟨h, t, rfl⟩ : ∃ h t, request = h :: t := by
      cases request with
      | nil => exact absurd rfl hne
      | cons h t => exact ⟨h, t, rfl⟩
    refine ⟨missingPieces (h :: t) c.requests, ?_⟩
    show (if (h :: t) ⊆ c.requests then _ else _) = _
    rw [if_neg hsub]
  · by_cases hne : request = []
    · exact Or.inl hne
    · by_cases hsub : request ⊆ c.requests
      · exact Or.inr (Or.inl ⟨hne, hsub⟩)
      · exact Or.inr (Or.inr ⟨hne, hsub⟩)
  · intro found gaps ⟨h1, h2⟩
    rw [h1] at h2
    cases h2


/-- Witness for C3 on a concrete cache and request. -/
theorem c3_cache_get_witness :
    ∃ found, cacheGet (⟨[((2 : Int), (5 : Int)), (7, 9)], [1, 2, 3]⟩ : Cache Int Int)
        [1, 2, 3] = .hit found ∧
      ∀ k v, (k, v) ∈ found ↔
        ((k, v) ∈ (⟨[((2 : Int), (5 : Int)), (7, 9)], [1, 2, 3]⟩ : Cache Int Int).data
          ∧ (∃ lo ∈ [(1 : Int), 2, 3], lo ≤ k) ∧ ∃ hi ∈ [(1 : Int), 2, 3], k ≤ hi) :=
  (c3_cache_get_cases (⟨[(2, 5), (7, 9)], [1, 2, 3]⟩ : Cache Int Int) [1, 2, 3]
    (by decide)).2.1 (by decide) (by decide)

/-- Helper: the accumulator loop of missing_pieces computes the nonempty
chunks of splitOnP, with the accumulator prepended to the first chunk. -/
theorem missingPiecesGo_eq {K : Type} [LinearOrder K] [DecidableEq K] (requests : List K)
    (l : List K) :
    ∀ (cur : List K) (c : List K) (cs : List (List K)),
      l.splitOnP (fun k => decide (k ∈ requests)) = c :: cs →
      missingPiecesGo requests l cur
        = ((cur ++ c) :: cs).filter (fun g => !g.isEmpty) := by
  induction l with
  | nil =>
    intro cur c cs h
    rw [List.splitOnP_nil] at h
    injection h with h1 h2
    subst h1
    subst h2
    show (if cur.isEmpty then [] else [cur]) = _
    cases cur with
    | nil => rfl
    | cons a as => simp [List.filter]
  | cons k ks ih =>
    intro cur c cs h
    rw [List.splitOnP_cons] at h
    obtain ⟨c', cs', hsplit⟩ :
        ∃ c' cs', ks.splitOnP (fun k => decide (k ∈ requests)) = c' :: cs' := by
      cases hsp : ks.splitOnP (fun k => decide (k ∈ requests)) with
      | nil => exact absurd hsp (List.splitOnP_ne_nil _ ks)
      | cons c' cs' => exact ⟨c', cs', rfl⟩
    by_cases hk : k ∈ requests
    · rw [if_pos (by simpa using hk)] at h
      injection h with h1 h2
      subst h1
      subst h2
      show (if k ∈ requests then _ else _) = _
      rw [if_pos hk]
      by_cases hcur : cur = []
      · subst hcur
        show missingPiecesGo requests ks [] = _
        rw [ih [] c' cs' hsplit, hsplit]
        simp
      · show (if cur.isEmpty then missingPiecesGo requests ks cur
            else cur :: missingPiecesGo requests ks []) = _
        rw [if_neg (by simpa using hcur)]
        rw [ih [] c' cs' hsplit, hsplit]
        simp [List.filter_cons, hcur]
    · rw [if_neg (by simpa using hk), hsplit] at h
      injection h with h1 h2
      subst h1
      subst h2
      show (if k ∈ requests then _ else _) = _
      rw [if_neg hk]
      rw [ih (cur ++ [k]) c' cs' hsplit]
      rw [List.append_assoc, List.singleton_append]

/-- Helper: missing_pieces computes exactly the nonempty maximal runs of
requested keys outside the resolved set, as given by splitOnP. -/
theorem missingPieces_eq_splitOnP {K : Type} [LinearOrder K] [DecidableEq K]
    (request requests : List K) :
    missingPieces request requests
      = (request.splitOnP fun k => decide (k ∈ requests)).filter
          (fun g => !g.isEmpty) := by
  obtain ⟨c, cs, hsplit⟩ :
      ∃ c cs, request.splitOnP (fun k => decide (k ∈ requests)) = c :: cs := by
    cases hsp : request.splitOnP (fun k => decide (k ∈ requests)) with
    | nil => exact absurd hsp (List.splitOnP_ne_nil _ request)
    | cons c cs => exact ⟨c, cs, rfl⟩
  unfold missingPieces
  rw [missingPiecesGo_eq requests request [] c cs hsplit, hsplit]
  simp

/-- Helper: dropping empty chunks does not change the flattening. -/
theorem flatten_filter_nonempty {K : Type} (L : List (List K)) :
    (L.filter fun g => !g.isEmpty).flatten = L.flatten := by
  induction L with
  | nil => rfl
  | cons g gs ih =>
    cases g with
    | nil => simpa using ih
    | cons a as => simp [List.filter_cons, ih]

/-- Helper: flattening the splitOnP chunks recovers the elements not
satisfying the predicate, in order. -/
theorem flatten_splitOnP {K : Type} (p : K → Bool) (l : List K) :
    (l.splitOnP p).flatten = l.filter fun a => !p a := by
  induction l with
  | nil => rfl
  | cons k ks ih =>
    rw [List.splitOnP_cons]
    obtain ⟨c, cs, hsplit⟩ : ∃ c cs, ks.splitOnP p = c :: cs := by
      cases hsp : ks.splitOnP p with
      | nil => exact absurd hsp (List.splitOnP_ne_nil _ ks)
      | cons c cs => exact ⟨c, cs, rfl⟩
    by_cases hk : p k
    · simp [hk, ih, List.filter_cons]
    · rw [if_neg (by simpa using hk), hsplit]
      show ((k :: c) :: cs).flatten = _
      rw [List.filter_cons]
      simp only [hk, Bool.not_false, if_true]
      rw [← ih, hsplit]
      simp

/-- C4: whenever Cache::get returns Miss, the carried groups are exactly the
nonempty maximal runs, contiguous with respect to the ascending request
order, of requested keys not in the resolved set: they equal the nonempty
chunks of splitting the request at resolved keys, their concatenation is
exactly the unresolved requested keys in ascending order, and no group is
empty.  For resolved keys 2,3,7,8 and request 1..10 the groups are
exactly 1; 4,5,6; 9,10. -/
theorem c4_miss_gaps {K T : Type} [LinearOrder K] [DecidableEq K]
    (c : Cache K T) (request : List K) (gaps : List (List K))
    (h : cacheGet c request = .miss gaps) :
    gaps = (request.splitOnP fun k => decide (k ∈ c.requests)).filter
        (fun g => !g.isEmpty)
    ∧ gaps.flatten = request.filter (fun k => !decide (k ∈ c.requests))
    ∧ (∀ g ∈ gaps, g ≠ [])
    ∧ cacheGet (⟨[], [2, 3, 7, 8]⟩ : Cache Int Int) [1, 2, 3, 4, 5, 6, 7, 8, 9, 10]
        = .miss [[1], [4, 5, 6], [9, 10]] := by
  have hg : gaps = missingPieces request c.requests := by
    cases request with
    | nil => cases h
    | cons h' t =>
      by_cases hs : (h' :: t) ⊆ c.requests
      · exfalso
        have hh : cacheGet c (h' :: t) = .hit (c.data.filter fun kv =>
            decide (h' ≤ kv.1)
              && decide (kv.1 ≤ (h' :: t).getLast (List.cons_ne_nil h' t))) := by
          show (if (h' :: t) ⊆ c.requests then _ else _) = _
          rw [if_pos hs]
        rw [hh] at h
        cases h
      · have hm : cacheGet c (h' :: t)
            = .miss (missingPieces (h' :: t) c.requests) := by
          show (if (h' :: t) ⊆ c.requests then _ else _) = _
          rw [if_neg hs]
        rw [hm] at h
        injection h with h
        exact h.symm
  subst hg
  refine ⟨missingPieces_eq_splitOnP request c.requests, ?_, ?_, by decide⟩
  · rw [missingPieces_eq_splitOnP, flatten_filter_nonempty, flatten_splitOnP]
  · intro g hgm
    rw [missingPieces_eq_splitOnP] at hgm
    have hne := List.of_mem_filter hgm
    intro hgnil
    subst hgnil
    simp at hne

/-- Helper: ordered-set insertion preserves membership. -/
theorem mem_setInsert_of_mem {K : Type} [LinearOrder K] [DecidableEq K]
    (k x : K) (l : List K) (hx : x ∈ l) : x ∈ setInsert k l := by
  induction l with
  | nil => cases hx
  | cons a t ih =>
    show x ∈ (if k < a then k :: a :: t else if k = a then a :: t
      else a :: setInsert k t)
    by_cases h1 : k < a
    · rw [if_pos h1]
      exact List.mem_cons_of_mem k hx
    · rw [if_neg h1]
      by_cases h2 : k = a
      · rw [if_pos h2]
        exact hx
      · rw [if_neg h2]
        rcases List.mem_cons.mp hx with rfl | hx
        · exact List.mem_cons_self _ _
        · exact List.mem_cons_of_mem a (ih hx)

/-- Helper: folding set insertions over a list only grows the set. -/
theorem subset_foldl_setInsert {K : Type} [LinearOrder K] [DecidableEq K]
    (l acc : List K) : acc ⊆ l.foldl (fun a k => setInsert k a) acc := by
  induction l generalizing acc with
  | nil => exact fun _ h => h
  | cons k t ih =>
    intro x hx
    exact ih (setInsert k acc) (mem_setInsert_of_mem k x acc hx)

/-- Helper: a map upsert adds at most the inserted key. -/
theorem mapKeys_mapInsert_subset {K T : Type} [LinearOrder K] [DecidableEq K]
    (k : K) (v : T) (m : List (K × T)) :
    mapKeys (mapInsert k v m) ⊆ k :: mapKeys m := by
  induction m with
  | nil =>
    intro x hx
    simpa [mapKeys, mapInsert] using hx
  | cons p rest ih =>
    obtain ⟨a, w⟩ := p
    show mapKeys (if k < a then (k, v) :: (a, w) :: rest
      else if k = a then (k, v) :: rest else (a, w) :: mapInsert k v rest) ⊆ _
    by_cases h1 : k < a
    · rw [if_pos h1]
      exact fun x hx => hx
    · rw [if_neg h1]
      by_cases h2 : k = a
      · rw [if_pos h2]
        intro x hx
        rcases List.mem_cons.mp hx with rfl | hx
        · exact List.mem_cons_self _ _
        · exact List.mem_cons_of_mem k (List.mem_cons_of_mem a hx)
      · rw [if_neg h2]
        intro x hx
        rcases List.mem_cons.mp hx with rfl | hx
        · exact List.mem_cons_of_mem k (List.mem_cons_self _ _)
        · rcases List.mem_cons.mp (ih hx) with rfl | hx'
          · exact List.mem_cons_self _ _
          · exact List.mem_cons_of_mem k (List.mem_cons_of_mem a hx')

/-- Helper: upserting a batch adds at most the batch keys. -/
theorem mapKeys_foldl_mapInsert {K T : Type} [LinearOrder K] [DecidableEq K]
    (d m : List (K × T)) :
    mapKeys (d.foldl (fun acc kv => mapInsert kv.1 kv.2 acc) m)
      ⊆ mapKeys d ++ mapKeys m := by
  induction d generalizing m with
  | nil => simp [mapKeys]
  | cons kv d ih =>
    intro x hx
    have h1 := ih (mapInsert kv.1 kv.2 m) hx
    rw [List.mem_append] at h1
    rcases h1 with h | h
    · exact List.mem_append_left _ (List.mem_cons_of_mem kv.1 h)
    · rcases List.mem_cons.mp (mapKeys_mapInsert_subset kv.1 kv.2 m h) with rfl | h'
      · exact List.mem_append_left _ (List.mem_cons_self _ _)
      · exact List.mem_append_right _ h'

/-- C8 amended: over any operation sequence from any state, the
resolved-request set only grows (per step and over a whole run, and get
cannot mutate the state at all); and provided every add call passes data
whose keys lie within its request-key set, the data-map key set after
running from the empty cache is contained in the union of the request-key
sets ever passed to add.  Without that premise the containment fails, see
the counterexample. -/
theorem c8_cache_invariants {K T : Type} [LinearOrder K] [DecidableEq K] :
    (∀ (c : Cache K T) (op : CacheOp K T), c.requests ⊆ (cacheStep c op).requests)
    ∧ (∀ (c : Cache K T) (req : List K), cacheStep c (CacheOp.get req) = c)
    ∧ (∀ (c : Cache K T) (ops : List (CacheOp K T)),
        c.requests ⊆ (cacheRun c ops).requests)
    ∧ (∀ (ops : List (CacheOp K T)),
        (∀ rng d, CacheOp.add rng d ∈ ops → mapKeys d ⊆ rng) →
        mapKeys (cacheRun (cacheEmpty : Cache K T) ops).data ⊆ addedKeys ops) := by
  have hstep : ∀ (c : Cache K T) (op : CacheOp K T),
      c.requests ⊆ (cacheStep c op).requests := by
    intro c op
    cases op with
    | add rng d => exact subset_foldl_setInsert rng c.requests
    | get req => exact fun _ h => h
  have hrun : ∀ (ops : List (CacheOp K T)) (c : Cache K T),
      c.requests ⊆ (cacheRun c ops).requests := by
    intro ops
    induction ops with
    | nil => exact fun c _ h => h
    | cons op rest ih =>
      intro c x hx
      exact ih (cacheStep c op) (hstep c op hx)
  have hdata : ∀ (ops : List (CacheOp K T)) (c : Cache K T),
      (∀ rng d, CacheOp.add rng d ∈ ops → mapKeys d ⊆ rng) →
      mapKeys (cacheRun c ops).data ⊆ addedKeys ops ++ mapKeys c.data := by
    intro ops
    induction ops with
    | nil => intro c _; simp [cacheRun, addedKeys]
    | cons op rest ih =>
      intro c hpre
      cases op with
      | get req =>
        show mapKeys (cacheRun c rest).data ⊆ addedKeys rest ++ mapKeys c.data
        exact ih c fun rng d hm => hpre rng d (List.mem_cons_of_mem _ hm)
      | add rng d =>
        intro x hx
        have hd : mapKeys d ⊆ rng := hpre rng d (List.mem_cons_self _ _)
        have h1 := ih (cacheAdd c rng d)
          (fun r' d' hm => hpre r' d' (List.mem_cons_of_mem _ hm)) hx
        rw [List.mem_append] at h1
        show x ∈ (rng ++ addedKeys rest) ++ mapKeys c.data
        rcases h1 with h | h
        · exact List.mem_append_left _ (List.mem_append_right rng h)
        · have h2 := mapKeys_foldl_mapInsert d c.data h
          rw [List.mem_append] at h2
          rcases h2 with h | h
          · exact List.mem_append_left _ (List.mem_append_left _ (hd h))
          · exact List.mem_append_right _ h
  refine ⟨hstep, fun _ _ => rfl, fun c ops => hrun ops c, ?_⟩
  intro ops hpre
  have := hdata ops cacheEmpty hpre
  simpa [cacheEmpty, mapKeys] using this

/-- Witness for C8 on a concrete one-add trace. -/
theorem c8_cache_invariants_witness :
    mapKeys (cacheRun (cacheEmpty : Cache Int Int)
        [CacheOp.add [1, 2] [(1, 5)]]).data
      ⊆ addedKeys [CacheOp.add ([1, 2] : List Int) [((1 : Int), (5 : Int))]] :=
  c8_cache_invariants.2.2.2 _ (by
    intro rng d hm
    rcases List.mem_cons.mp hm with heq | h
    · injection heq with h1 h2
      subst h1
      subst h2
      decide
    · cases h)

/-- C8 counterexample: add can insert data at keys never requested —
adding the pair (0, 0) under an empty request-key set puts key 0 in the
data map while the union of added request keys stays empty, refuting the
claimed subset invariant. -/
theorem c8_counterexample :
    (0 : Int) ∈ mapKeys (cacheRun (cacheEmpty : Cache Int Int)
        [CacheOp.add [] [(0, 0)]]).data
    ∧ (0 : Int) ∉ addedKeys [CacheOp.add ([] : List Int) [((0 : Int), (0 : Int))]] := by
  decide

/-- Witness for C4 on the specification's concrete example. -/
theorem c4_miss_gaps_witness :
    ([[1], [4, 5, 6], [9, 10]] : List (List Int)).flatten
      = ([1, 2, 3, 4, 5, 6, 7, 8, 9, 10] : List Int).filter
          (fun k => !decide (k ∈ ([2, 3, 7, 8] : List Int))) :=
  ((c4_miss_gaps (⟨[], [2, 3, 7, 8]⟩ : Cache Int Int)
    [1, 2, 3, 4, 5, 6, 7, 8, 9, 10] [[1], [4, 5, 6], [9, 10]] (by decide)).2).1
